import Mathlib

/-!
Verification of the VoiceGuard identity store and verification engine.

Shallow embedding of the repository's core:

* `db.py` — a JSON-file-backed persistence layer: `User` dataclass,
  `_read_users_file` / `_write_users_file`, `_Session.add` / `_Session.commit` /
  `_Session.query`, `delete_user`, and the dict/dataclass conversion helpers.
* `main.py` — the verification worker of `_finish_verification_recording`:
  `cos_sim` (cosine similarity with a zero-denominator guard), the
  `np.argmax`-based best-candidate selection, and the threshold decision.

Modelling choices, spelled out once here:

* Python `int` is `Int` (unbounded); record ids are `Option Int`
  (`None` = unpersisted).
* The durable `users.json` file is a `FileState`: missing, unreadable or
  undecodable (OSError / JSONDecodeError), a dict carrying a `"users"` list,
  a dict without that key, or a legacy top-level list.  A JSON-level record
  (one dict of the `"users"` list) is a `RawUser` whose fields are `Option`s:
  `none` models an absent key.  (Other corrupt JSON shapes — e.g. a scalar at
  top level, or wrongly-typed field values — behave like further cases of the
  same phenomena and are not separately enumerated.)
* Python `date` objects are modelled as canonical `YYYY-MM-DD` strings
  validated by `isValidIsoDate` (the format `date.fromisoformat` is given by
  this program and the format `date.isoformat` produces); `ValidDate` bundles
  the string with its validity so that a `User` always serializes to a
  parseable date, exactly as a Python `date` object does.
* Raised Python exceptions are `Except DbError`; a total Lean function models
  code that cannot raise.
* The embedding vector (a JSON list of floats, stored as a string) is
  modelled as the parsed `List ℚ`; the serialization is order-preserving and
  lossless, so it is modelled as the identity.  Scores and thresholds of the
  selection logic are `ℚ` (exact stand-in for floats: the selection and
  threshold logic only uses the linear order).  The cosine formula itself
  needs square roots and is modelled over `ℝ`.
* `_write_users_file` is `Path.write_text`, i.e. open-with-truncation then
  write.  A successful write yields `FileState.dictUsers`.  A write that
  fails midway (e.g. disk full) leaves a strict prefix of the serialized
  text in the file; a strict prefix of a `json.dumps` object dump never
  closes the outermost brace, hence is undecodable (`FileState.undecodable`).
-/

namespace VoiceAuth

/-! ### Dates (model of Python `datetime.date` / `fromisoformat` / `isoformat`) -/

/-- Is `c` an ASCII digit. -/
def isDigitCh (c : Char) : Bool := 48 ≤ c.toNat && c.toNat ≤ 57

/-- Digit value of an ASCII digit character. -/
def digitVal (c : Char) : Nat := c.toNat - 48

/-- Gregorian leap year, as the Python `datetime` module computes it. -/
def isLeapYear (y : Nat) : Bool := y % 4 == 0 && (y % 100 != 0 || y % 400 == 0)

/-- Days in a month, as the Python `datetime` module computes it. -/
def daysInMonth (y m : Nat) : Nat :=
  if m == 2 then (if isLeapYear y then 29 else 28)
  else if m == 4 || m == 6 || m == 9 || m == 11 then 30
  else 31

/-- Does `s` parse as a canonical `YYYY-MM-DD` calendar date (the format
`date.fromisoformat` accepts and `date.isoformat` emits)? -/
def isValidIsoDate (s : String) : Bool :=
  match s.data with
  | [y1, y2, y3, y4, '-', m1, m2, '-', d1, d2] =>
    isDigitCh y1 && isDigitCh y2 && isDigitCh y3 && isDigitCh y4 &&
    isDigitCh m1 && isDigitCh m2 && isDigitCh d1 && isDigitCh d2 &&
    (let y := ((digitVal y1 * 10 + digitVal y2) * 10 + digitVal y3) * 10 + digitVal y4
     let m := digitVal m1 * 10 + digitVal m2
     let d := digitVal d1 * 10 + digitVal d2
     Nat.ble 1 y && Nat.ble y 9999 && Nat.ble 1 m && Nat.ble m 12 &&
       Nat.ble 1 d && Nat.ble d (daysInMonth y m))
  | _ => false

/-- A Python `date` object: a canonical ISO date string together with its
validity (every `date` object round-trips through `isoformat`). -/
abbrev ValidDate := { s : String // isValidIsoDate s = true }

/-! ### The `User` dataclass (db.py lines 77-102) -/

/-- Model of the embedding vector: the JSON list of floats that the
`embedding` string field of a user decodes to. -/
abbrev EmbVec := List ℚ

/-- The `User` dataclass of db.py: `first_name`, `last_name`,
`date_of_birth`, `embedding`, and `id` defaulting to `None`. -/
structure User where
  first_name : String
  last_name : String
  date_of_birth : ValidDate
  embedding : EmbVec
  id : Option Int := none
deriving DecidableEq

/-- `User.full_name` (db.py line 89): first name, a space, last name. -/
def User.full_name (u : User) : String := u.first_name ++ " " ++ u.last_name

/-! ### The durable representation (users.json) -/

/-- One dict of the `"users"` list in users.json; `none` = key absent. -/
structure RawUser where
  id : Option Int
  first_name : Option String
  last_name : Option String
  date_of_birth : Option String
  embedding : Option EmbVec
deriving DecidableEq

/-- Python exceptions raised by the db layer. -/
inductive DbError where
  | keyError
  | valueError
  | typeError
deriving DecidableEq

/-- State of the users.json file. -/
inductive FileState where
  /-- The file does not exist. -/
  | missing
  /-- The file exists but reading or JSON-decoding it fails
  (`OSError` / `json.JSONDecodeError`), e.g. after a truncated write. -/
  | undecodable
  /-- A JSON dict with a `"users"` list (the format `_write_users_file`
  produces). -/
  | dictUsers (users : List RawUser)
  /-- A JSON dict without a `"users"` key (`data.get` defaults to `[]`). -/
  | dictOther
  /-- Legacy format: a plain top-level JSON list. -/
  | legacyList (users : List RawUser)
deriving DecidableEq

/-- `_read_users_file` (db.py lines 51-65): missing file or decode/OS error
yields `[]`; a dict yields its `"users"` entry (default `[]`); a legacy list
is returned directly.  Total: this function never raises. -/
def read_users_file : FileState → List RawUser
  | .missing => []
  | .undecodable => []
  | .dictUsers us => us
  | .dictOther => []
  | .legacyList us => us

/-- `_write_users_file` (db.py lines 68-69), successful case: the file now
holds a dict with the given `"users"` list. -/
def write_users_file (users : List RawUser) : FileState := .dictUsers users

/-- `_user_to_dict` (db.py lines 191-194): `asdict` plus `isoformat` on the
date; every field is present in the resulting dict. -/
def user_to_dict (u : User) : RawUser :=
  ⟨u.id, some u.first_name, some u.last_name, some u.date_of_birth.val,
    some u.embedding⟩

/-- `_dict_to_user` (db.py lines 197-204): `d["first_name"]` etc. raise
`KeyError` on an absent key, `date.fromisoformat` raises `ValueError` on a
malformed date; `d.get("id")` never raises.  Keyword arguments are evaluated
left to right, so the first missing key (in the order id, first_name,
last_name, date_of_birth, embedding) determines the exception. -/
def dict_to_user (d : RawUser) : Except DbError User :=
  match d.first_name with
  | none => .error .keyError
  | some fn =>
    match d.last_name with
    | none => .error .keyError
    | some ln =>
      match d.date_of_birth with
      | none => .error .keyError
      | some dob =>
        if h : isValidIsoDate dob then
          match d.embedding with
          | none => .error .keyError
          | some emb => .ok ⟨fn, ln, ⟨dob, h⟩, emb, d.id⟩
        else .error .valueError

/-- Left-to-right effectful map over `Except`: the semantics of the Python
list comprehension `[_dict_to_user(d) for d in raw]` — the first raised
exception propagates. -/
def mapE (f : α → Except ε β) : List α → Except ε (List β)
  | [] => .ok []
  | a :: as => do
    let b ← f a
    let bs ← mapE f as
    .ok (b :: bs)

/-- The full load path used by `_Session.commit` and `_Session.query`
(db.py lines 153-156 and 176): read the file, convert every raw dict. -/
def usersLoad (fs : FileState) : Except DbError (List User) :=
  mapE dict_to_user (read_users_file fs)

/-! ### Id assignment and commit (db.py `_Session`) -/

/-- The persisted ids of a list of users (ids that are not `None`). -/
def someIds (us : List User) : List Int := us.filterMap (·.id)

/-- `max(l or [0])`: maximum of a list of ints, `0` when the list is empty
(db.py line 158 computes `max([u.id for u in current if u.id is not None]
or [0])`). -/
def listMaxD : List Int → Int
  | [] => 0
  | x :: xs => xs.foldl max x

/-- `max_id` of db.py line 158. -/
def maxIdOf (us : List User) : Int := listMaxD (someIds us)

/-- The assignment loop of db.py lines 161-163: `enumerate(self._new,
start=1)`; a record whose id is `None` receives `max_id + idx`, a record
whose id is set is left unchanged. -/
def assignIds (m : Int) : Nat → List User → List User
  | _, [] => []
  | idx, u :: us =>
    (if u.id = none then { u with id := some (m + (idx : Int)) } else u) ::
      assignIds m (idx + 1) us

/-- The ids freshly assigned by the loop of db.py lines 161-163, in order:
one id `max_id + idx` per pending record whose id was `None`. -/
def newIds (m : Int) : Nat → List User → List Int
  | _, [] => []
  | idx, u :: us =>
    if u.id = none then (m + (idx : Int)) :: newIds m (idx + 1) us
    else newIds m (idx + 1) us

/-- Persist a list of users: `_write_users_file([_user_to_dict(u) for u in
combined_users])` (db.py line 167), successful case. -/
def writeUsers (us : List User) : FileState := write_users_file (us.map user_to_dict)

/-- `_Session.commit` (db.py lines 148-170) with a succeeding persist step.
Empty pending list: return immediately, file untouched.  Otherwise: load the
current users (any exception propagates), compute `max_id`, assign ids to
pending records whose id is `None`, persist current ++ pending, clear the
pending list.  Returns the new file state and the list of freshly assigned
ids; on success the session's pending list becomes `[]`. -/
def commitF (fs : FileState) (pending : List User) :
    Except DbError (FileState × List Int) :=
  if pending.isEmpty then .ok (fs, [])
  else do
    let current ← usersLoad fs
    let m := maxIdOf current
    .ok (writeUsers (current ++ assignIds m 1 pending), newIds m 1 pending)

/-- `_Session.commit` when the persist step (`USERS_FILE.write_text`,
db.py line 69) fails midway: the file was opened with truncation and holds a
strict prefix of the serialized text when the failure hits, which is not
decodable JSON; the exception propagates, so `self._new.clear()` (line 170)
is not reached and the pending list — with ids already assigned in place by
lines 161-163 — survives.  Returns the resulting file state and pending
list.  (An empty pending list returns before persist is called; a load
failure raises before persist is called — both leave the file untouched.) -/
def commitPersistFails (fs : FileState) (pending : List User) :
    FileState × List User :=
  if pending.isEmpty then (fs, pending)
  else
    match usersLoad fs with
    | .error _ => (fs, pending)
    | .ok current => (.undecodable, assignIds (maxIdOf current) 1 pending)

/-- `_Session.add` (db.py lines 143-146): the argument of a Python call is
either a `User` instance or some other value; only `isinstance(user, User)`
is checked — any non-`User` raises `TypeError`, any `User` is appended. -/
inductive AddArg where
  | user (u : User)
  | notUser
deriving DecidableEq

/-- `_Session.add` (db.py lines 143-146): raise `TypeError` unless the
argument is a `User` instance; otherwise append it to the pending list.  The
store (file) is not an input or output: `add` cannot touch it. -/
def session_add (pending : List User) (a : AddArg) :
    Except DbError (List User) :=
  match a with
  | .notUser => .error .typeError
  | .user u => .ok (pending ++ [u])

/-- `delete_user` (db.py lines 220-247): read the raw dicts, drop those whose
`"id"` equals `user_id` (`d.get("id") != user_id`; an absent or `None` id
never equals an int), write back only if something was dropped; returns
whether a record was removed, and the resulting file state. -/
def delete_user (fs : FileState) (uid : Int) : Bool × FileState :=
  let users_raw := read_users_file fs
  let users_filtered := users_raw.filter (fun d => d.id ≠ some uid)
  if users_filtered.length = users_raw.length then (false, fs)
  else (true, write_users_file users_filtered)

/-! ### Operation sequences over the store (for the id-uniqueness claims) -/

/-- One store-mutating operation: a `_Session.commit` of a given pending
list (each commit from a fresh session), or a `delete_user`. -/
inductive Op where
  | commit (pending : List User)
  | delete (uid : Int)

/-- Run a sequence of operations from a file state; returns the final file
state and the concatenated trace of all ids freshly assigned by the
commits.  A raised exception aborts the run. -/
def runOps (fs : FileState) : List Op → Except DbError (FileState × List Int)
  | [] => .ok (fs, [])
  | .commit p :: ops =>
    match commitF fs p with
    | .error e => .error e
    | .ok r =>
      match runOps r.1 ops with
      | .error e => .error e
      | .ok s => .ok (s.1, r.2 ++ s.2)
  | .delete uid :: ops => runOps (delete_user fs uid).2 ops

/-! ### MatchEngine (main.py `_finish_verification_recording.worker`) -/

/-- Similarity scores of the query against every candidate, in candidate
order (main.py line 502). -/
def scoresOf (sim : EmbVec → EmbVec → ℚ) (q : EmbVec) (users : List User) :
    List ℚ :=
  users.map fun v => sim q v.embedding

/-- `np.argmax` (main.py line 505): the index of the first occurrence of the
maximum value.  (`np.argmax` raises on an empty array; the worker only calls
it on a non-empty one — the `[]` case is arbitrary.) -/
def npArgmax : List ℚ → Nat
  | [] => 0
  | x :: xs => (x :: xs).indexOf (xs.foldl max x)

/-- Outcome of the verification worker (main.py lines 482-535): the
no-registered-users message, the match message carrying the selected user and
its score, or the no-match message carrying the best score. -/
inductive VResult where
  | noEnrollments
  | matched (user : User) (score : ℚ)
  | noMatch (best : ℚ)
deriving DecidableEq

/-- The decision logic of the verification worker (main.py lines 482-535),
parametrized by the similarity function: empty user list → `noEnrollments`
before any similarity is computed; otherwise compute all scores, take
`best_idx = np.argmax(similarities)`, `best_score = similarities[best_idx]`,
and compare `best_score >= threshold` (inclusive). -/
def verify (sim : EmbVec → EmbVec → ℚ) (q : EmbVec) (users : List User)
    (threshold : ℚ) : VResult :=
  match users with
  | [] => .noEnrollments
  | u :: us =>
    let scores := scoresOf sim q (u :: us)
    let bi := npArgmax scores
    let best := scores.getD bi 0
    if threshold ≤ best then .matched ((u :: us).getD bi u) best
    else .noMatch best

/-! ### Cosine similarity (main.py lines 495-500)

The numeric kernel is modelled over `ℝ` (the square root does not exist in
`ℚ`); the inputs are 1-D already, so `np.ravel` is the identity and is
dropped. -/

/-- `np.dot` of two 1-D vectors: sum of coordinatewise products. -/
def dotL (a b : List ℝ) : ℝ := (List.zipWith (fun x y => x * y) a b).sum

/-- Sum of squares of the coordinates. -/
def sumSq (a : List ℝ) : ℝ := (a.map fun x => x * x).sum

/-- `np.linalg.norm`: the Euclidean norm. -/
noncomputable def norm2 (a : List ℝ) : ℝ := Real.sqrt (sumSq a)

open Classical in
/-- `cos_sim` (main.py lines 495-500): `denom = norm(a) * norm(b)`; return
`dot(a, b) / denom` if `denom` is truthy (nonzero), else `0.0`.  Total: the
guard means the division-by-zero branch is never taken and the function
never raises. -/
noncomputable def cos_sim (a b : List ℝ) : ℝ :=
  if norm2 a * norm2 b = 0 then 0 else dotL a b / (norm2 a * norm2 b)

/-! ### Concrete records used by counterexamples and witnesses -/

/-- A concrete valid date. -/
def d2000 : ValidDate := ⟨"2000-01-01", by decide⟩

/-- A fresh (unpersisted) user with the given first name. -/
def mkFresh (fn : String) : User := ⟨fn, "X", d2000, [], none⟩

/-- A user whose id is already set to 7 before being added to a session. -/
def uPre7 : User := ⟨"P", "Q", d2000, [], some 7⟩

/-- A stored user with id 1. -/
def storedU : User := ⟨"S", "T", d2000, [], some 1⟩

/-- Another user with id 1 (same id as `storedU`, different name). -/
def dupU1 : User := ⟨"D", "E", d2000, [], some 1⟩

/-- A raw dict with every key absent: decodable JSON whose record structure
is malformed. -/
def rawBlank : RawUser := ⟨none, none, none, none, none⟩

/-- Three users with distinguishable embeddings, for the argmax example. -/
def uV1 : User := ⟨"A", "X", d2000, [1], none⟩

def uV2 : User := ⟨"B", "X", d2000, [2], none⟩

def uV3 : User := ⟨"C", "X", d2000, [3], none⟩

/-- A similarity function realizing the spec's score example
`[0.5, 0.9, 0.9]` on `uV1, uV2, uV3`. -/
def simEx : EmbVec → EmbVec → ℚ :=
  fun _ e => if e = [1] then mkRat 1 2 else mkRat 9 10

/-! ### Helper lemmas: folds, maxima, round-trips -/

theorem le_foldl_max [LinearOrder α] : ∀ (l : List α) (x : α), x ≤ l.foldl max x
  | [], _ => le_refl _
  | z :: zs, x => le_trans (le_max_left x z) (le_foldl_max zs (max x z))

theorem mem_le_foldl_max [LinearOrder α] :
    ∀ (l : List α) (x y : α), y ∈ l → y ≤ l.foldl max x
  | z :: zs, x, y, h => by
    rcases List.mem_cons.mp h with h | h
    · subst h
      exact le_trans (le_max_right x y) (le_foldl_max zs (max x y))
    · exact mem_le_foldl_max zs (max x z) y h

theorem foldl_max_mem [LinearOrder α] : ∀ (l : List α) (x : α), l.foldl max x ∈ x :: l
  | [], x => List.mem_singleton.mpr rfl
  | z :: zs, x => by
    have h := foldl_max_mem zs (max x z)
    simp only [List.foldl_cons]
    rcases List.mem_cons.mp h with h | h
    · rcases max_choice x z with hm | hm
      · rw [h, hm]; exact List.mem_cons_self _ _
      · rw [h, hm]; exact List.mem_cons_of_mem _ (List.mem_cons_self _ _)
    · exact List.mem_cons_of_mem _ (List.mem_cons_of_mem _ h)

theorem mem_cons_le_foldl_max [LinearOrder α] (l : List α) (x y : α)
    (h : y ∈ x :: l) : y ≤ l.foldl max x := by
  rcases List.mem_cons.mp h with h | h
  · subst h; exact le_foldl_max l y
  · exact mem_le_foldl_max l x y h

theorem mem_le_listMaxD {l : List Int} {x : Int} (h : x ∈ l) : x ≤ listMaxD l := by
  cases l with
  | nil => cases h
  | cons z zs => exact mem_cons_le_foldl_max zs z x h

theorem dict_to_user_roundtrip (u : User) : dict_to_user (user_to_dict u) = .ok u := by
  obtain ⟨fn, ln, ⟨dob, hd⟩, emb, oid⟩ := u
  simp [dict_to_user, user_to_dict, hd]

theorem usersLoad_writeUsers : ∀ us : List User, usersLoad (writeUsers us) = .ok us := by
  intro us
  show mapE dict_to_user (us.map user_to_dict) = .ok us
  induction us with
  | nil => rfl
  | cons u us ih =>
    simp only [List.map_cons, mapE, dict_to_user_roundtrip u, ih]
    rfl

theorem someIds_append (l l' : List User) :
    someIds (l ++ l') = someIds l ++ someIds l' :=
  List.filterMap_append l l' _

/-! ### Helper lemmas: id assignment -/

theorem assignIds_length (m : Int) : ∀ (j : Nat) (p : List User),
    (assignIds m j p).length = p.length
  | _, [] => rfl
  | j, _ :: us => by simp [assignIds, assignIds_length m (j + 1) us]

theorem newIds_ge (m : Int) : ∀ (j : Nat) (p : List User) (x : Int),
    x ∈ newIds m j p → m + (j : Int) ≤ x
  | j, u :: us, x, h => by
    by_cases hu : u.id = none
    · simp only [newIds, hu, if_pos rfl] at h
      rcases List.mem_cons.mp h with h | h
      · subst h; exact le_refl _
      · have := newIds_ge m (j + 1) us x h
        push_cast at this ⊢
        omega
    · simp only [newIds, hu, if_neg hu] at h
      have := newIds_ge m (j + 1) us x h
      push_cast at this ⊢
      omega

theorem newIds_pairwise (m : Int) : ∀ (j : Nat) (p : List User),
    (newIds m j p).Pairwise (· < ·)
  | _, [] => List.Pairwise.nil
  | j, u :: us => by
    by_cases hu : u.id = none
    · simp only [newIds, if_pos hu]
      refine List.pairwise_cons.mpr ⟨fun x hx => ?_, newIds_pairwise m (j + 1) us⟩
      have := newIds_ge m (j + 1) us x hx
      push_cast at this ⊢
      omega
    · simpa [newIds, hu] using newIds_pairwise m (j + 1) us

theorem someIds_assignIds_of_none (m : Int) : ∀ (j : Nat) (p : List User),
    (∀ u ∈ p, u.id = none) → someIds (assignIds m j p) = newIds m j p
  | _, [], _ => rfl
  | j, u :: us, h => by
    have hu : u.id = none := h u (List.mem_cons_self u us)
    have ht : ∀ v ∈ us, v.id = none := fun v hv => h v (List.mem_cons_of_mem u hv)
    simp [assignIds, newIds, hu, someIds, List.filterMap_cons,
      someIds_assignIds_of_none m (j + 1) us ht |>.symm, someIds]

theorem assignIds_of_some (m : Int) : ∀ (j : Nat) (p : List User),
    (∀ u ∈ p, u.id ≠ none) → assignIds m j p = p
  | _, [], _ => rfl
  | j, u :: us, h => by
    have hu : u.id ≠ none := h u (List.mem_cons_self u us)
    have ht : ∀ v ∈ us, v.id ≠ none := fun v hv => h v (List.mem_cons_of_mem u hv)
    simp [assignIds, hu, assignIds_of_some m (j + 1) us ht]

theorem newIds_of_some (m : Int) : ∀ (j : Nat) (p : List User),
    (∀ u ∈ p, u.id ≠ none) → newIds m j p = []
  | _, [], _ => rfl
  | j, u :: us, h => by
    have hu : u.id ≠ none := h u (List.mem_cons_self u us)
    have ht : ∀ v ∈ us, v.id ≠ none := fun v hv => h v (List.mem_cons_of_mem u hv)
    simp [newIds, hu, newIds_of_some m (j + 1) us ht]

theorem assignIds_getElem_of_none (m : Int) : ∀ (p : List User) (j i : Nat) (u : User),
    (∀ v ∈ p, v.id = none) → p[i]? = some u →
    (assignIds m j p)[i]? = some { u with id := some (m + (j : Int) + (i : Int)) }
  | [], _, i, u, _, hp => by simp at hp
  | v :: vs, j, 0, u, h, hp => by
    have hv : v.id = none := h v (List.mem_cons_self v vs)
    simp only [List.getElem?_cons_zero, Option.some_inj] at hp
    subst hp
    simp [assignIds, hv]
  | v :: vs, j, i + 1, u, h, hp => by
    have hv : v.id = none := h v (List.mem_cons_self v vs)
    have ht : ∀ w ∈ vs, w.id = none := fun w hw => h w (List.mem_cons_of_mem v hw)
    simp only [List.getElem?_cons_succ] at hp
    have := assignIds_getElem_of_none m vs (j + 1) i u ht hp
    simp only [assignIds, hv, if_pos rfl, List.getElem?_cons_succ, this]
    congr 3
    push_cast
    ring

theorem newIds_head_mem (m : Int) (j : Nat) (v : User) (vs : List User)
    (hv : v.id = none) : (m + (j : Int)) ∈ newIds m j (v :: vs) := by
  simp [newIds, hv]

/-- Unfold `commitF` on a non-empty pending list over a loadable store. -/
theorem commitF_of_load (fs : FileState) (us : List User) (p : List User)
    (hp : p ≠ []) (hl : usersLoad fs = .ok us) :
    commitF fs p =
      .ok (writeUsers (us ++ assignIds (maxIdOf us) 1 p), newIds (maxIdOf us) 1 p) := by
  have hne : p.isEmpty = false := by
    cases p with
    | nil => exact absurd rfl hp
    | cons a as => rfl
  simp only [commitF, hne, Bool.false_eq_true, if_false, hl]
  rfl

/-! ### Helper lemmas: argmax selection -/

theorem getElem_ne_of_lt_indexOf (a : ℚ) :
    ∀ (l : List ℚ) (j : Nat) (hj : j < l.length), j < l.indexOf a → l[j] ≠ a
  | [], j, hj, _ => absurd hj (by simp)
  | b :: bs, 0, _, hlt => by
    intro hb
    rw [List.getElem_cons_zero] at hb
    subst hb
    simp [List.indexOf_cons] at hlt
  | b :: bs, j + 1, hj, hlt => by
    have hba : (b == a) = false := by
      rcases Bool.eq_false_or_eq_true (b == a) with h | h
      · rw [List.indexOf_cons, h] at hlt
        simp at hlt
      · exact h
    rw [List.indexOf_cons, hba] at hlt
    simp only [cond_false] at hlt
    rw [List.getElem_cons_succ]
    exact getElem_ne_of_lt_indexOf a bs j (by simpa using hj) (by omega)

theorem npArgmax_lt_length (x : ℚ) (xs : List ℚ) :
    npArgmax (x :: xs) < (x :: xs).length :=
  List.indexOf_lt_length.mpr (foldl_max_mem xs x)

theorem getD_npArgmax (x : ℚ) (xs : List ℚ) :
    (x :: xs).getD (npArgmax (x :: xs)) 0 = xs.foldl max x := by
  have h := List.indexOf_get (List.indexOf_lt_length.mpr (foldl_max_mem xs x))
  rw [List.getD_eq_getElem (x :: xs) 0 (npArgmax_lt_length x xs)]
  rw [List.get_eq_getElem] at h
  exact h

theorem getD_le_max (x : ℚ) (xs : List ℚ) (j : Nat) (hj : j < (x :: xs).length) :
    (x :: xs).getD j 0 ≤ xs.foldl max x := by
  rw [List.getD_eq_getElem (x :: xs) 0 hj]
  exact mem_cons_le_foldl_max xs x _ (List.getElem_mem hj)

theorem getD_lt_max_of_lt_npArgmax (x : ℚ) (xs : List ℚ) (j : Nat)
    (hj : j < npArgmax (x :: xs)) :
    (x :: xs).getD j 0 < xs.foldl max x := by
  have hlen : j < (x :: xs).length := lt_trans hj (npArgmax_lt_length x xs)
  have hne : (x :: xs)[j] ≠ xs.foldl max x :=
    getElem_ne_of_lt_indexOf (xs.foldl max x) (x :: xs) j hlen hj
  have hle : (x :: xs).getD j 0 ≤ xs.foldl max x := getD_le_max x xs j hlen
  rw [List.getD_eq_getElem (x :: xs) 0 hlen] at hle ⊢
  exact lt_of_le_of_ne hle hne

theorem assignIds_getElem_of_some (m : Int) : ∀ (p : List User) (j i : Nat) (u : User),
    u.id ≠ none → p[i]? = some u → (assignIds m j p)[i]? = some u
  | [], _, i, u, _, hp => by simp at hp
  | v :: vs, j, 0, u, hu, hp => by
    simp only [List.getElem?_cons_zero, Option.some_inj] at hp
    subst hp
    simp [assignIds, hu]
  | v :: vs, j, i + 1, u, hu, hp => by
    simp only [List.getElem?_cons_succ] at hp
    simp only [assignIds, List.getElem?_cons_succ]
    exact assignIds_getElem_of_some m vs (j + 1) i u hu hp

/-- The run invariant for sequences of commits of fresh records: the run
succeeds, the store stays loadable, its persisted ids grow exactly by the
trace of freshly assigned ids, the trace is strictly increasing, and every
trace element exceeds the initial maximum id. -/
theorem runCommits_aux :
    ∀ (pss : List (List User)) (fs : FileState) (us : List User),
      usersLoad fs = .ok us →
      (∀ p ∈ pss, ∀ u ∈ p, u.id = none) →
      ∃ fs' us' tr,
        runOps fs (pss.map Op.commit) = .ok (fs', tr) ∧
        usersLoad fs' = .ok us' ∧
        someIds us' = someIds us ++ tr ∧
        tr.Pairwise (· < ·) ∧
        (∀ j ∈ tr, listMaxD (someIds us) < j)
  | [], fs, us, hl, _ =>
    ⟨fs, us, [], rfl, hl, by simp, List.Pairwise.nil, by simp⟩
  | p :: rest, fs, us, hl, hfresh => by
    have hfp : ∀ u ∈ p, u.id = none := hfresh p (List.mem_cons_self p rest)
    have hfr : ∀ q ∈ rest, ∀ u ∈ q, u.id = none :=
      fun q hq => hfresh q (List.mem_cons_of_mem p hq)
    cases p with
    | nil =>
      obtain ⟨fs', us', tr, hrun, hload, hsome, hpw, hgt⟩ :=
        runCommits_aux rest fs us hl hfr
      refine ⟨fs', us', tr, ?_, hload, hsome, hpw, hgt⟩
      have hc0 : commitF fs [] = .ok (fs, []) := rfl
      rw [List.map_cons]
      simp only [runOps, hc0, hrun, List.nil_append]
    | cons v vs =>
      have hvnone : v.id = none := hfp v (List.mem_cons_self v vs)
      have hcommit := commitF_of_load fs us (v :: vs) (List.cons_ne_nil v vs) hl
      have hload1 :
          usersLoad (writeUsers (us ++ assignIds (maxIdOf us) 1 (v :: vs))) =
            .ok (us ++ assignIds (maxIdOf us) 1 (v :: vs)) :=
        usersLoad_writeUsers _
      have hsome1 :
          someIds (us ++ assignIds (maxIdOf us) 1 (v :: vs)) =
            someIds us ++ newIds (maxIdOf us) 1 (v :: vs) := by
        rw [someIds_append, someIds_assignIds_of_none (maxIdOf us) 1 (v :: vs) hfp]
      obtain ⟨fs', us', tr', hrun', hload', hsome', hpw', hgt'⟩ :=
        runCommits_aux rest _ _ hload1 hfr
      have hm1mem : (maxIdOf us + (1 : Int)) ∈
          someIds (us ++ assignIds (maxIdOf us) 1 (v :: vs)) := by
        rw [hsome1]
        refine List.mem_append_right _ ?_
        have h := newIds_head_mem (maxIdOf us) 1 v vs hvnone
        simpa using h
      refine ⟨fs', us', newIds (maxIdOf us) 1 (v :: vs) ++ tr', ?_, hload', ?_, ?_, ?_⟩
      · rw [List.map_cons]
        simp only [runOps, hcommit, hrun']
      · rw [hsome', hsome1, List.append_assoc]
      · refine List.pairwise_append.mpr ⟨newIds_pairwise _ 1 (v :: vs), hpw', ?_⟩
        intro a ha b hb
        have hamem : a ∈ someIds (us ++ assignIds (maxIdOf us) 1 (v :: vs)) := by
          rw [hsome1]; exact List.mem_append_right _ ha
        exact lt_of_le_of_lt (mem_le_listMaxD hamem) (hgt' b hb)
      · intro j hj
        have hmx : listMaxD (someIds us) = maxIdOf us := rfl
        rcases List.mem_append.mp hj with hj | hj
        · have hge := newIds_ge (maxIdOf us) 1 (v :: vs) j hj
          push_cast at hge
          rw [hmx]
          omega
        · have h1 : maxIdOf us + 1 ≤
              listMaxD (someIds (us ++ assignIds (maxIdOf us) 1 (v :: vs))) :=
            mem_le_listMaxD hm1mem
          have h2 := hgt' j hj
          rw [hmx]
          omega

/-- Unfold `verify` on a non-empty candidate list. -/
theorem verify_cons (sim : EmbVec → EmbVec → ℚ) (q : EmbVec) (u : User)
    (us : List User) (t : ℚ) :
    verify sim q (u :: us) t =
      if t ≤ (scoresOf sim q (u :: us)).getD (npArgmax (scoresOf sim q (u :: us))) 0
      then .matched ((u :: us).getD (npArgmax (scoresOf sim q (u :: us))) u)
        ((scoresOf sim q (u :: us)).getD (npArgmax (scoresOf sim q (u :: us))) 0)
      else .noMatch ((scoresOf sim q (u :: us)).getD (npArgmax (scoresOf sim q (u :: us))) 0) :=
  rfl

/-! ### Claim theorems -/

/-- Claim C1, counterexample: starting from the empty store, committing two
fresh records assigns ids 1 and 2, deleting the record with id 2 succeeds,
and the next commit of a fresh record assigns id 2 again — the trace of
assigned ids is `[1, 2, 2]`: an id is reused after the record bearing it was
deleted, so the ids of all records ever persisted are not pairwise
distinct and the new id is not strictly greater than every previously
assigned id. -/
theorem id_reuse_after_delete :
    runOps (.dictUsers [])
        [Op.commit [mkFresh "A", mkFresh "B"], Op.delete 2, Op.commit [mkFresh "C"]] =
      .ok (.dictUsers [user_to_dict { mkFresh "A" with id := some 1 },
                       user_to_dict { mkFresh "C" with id := some 2 }], [1, 2, 2]) ∧
    delete_user (.dictUsers [user_to_dict { mkFresh "A" with id := some 1 },
                             user_to_dict { mkFresh "B" with id := some 2 }]) 2 =
      (true, .dictUsers [user_to_dict { mkFresh "A" with id := some 1 }]) :=
  ⟨rfl, rfl⟩

/-- Claim C1 as amended: for every sequence of successful commits (no
deletions) of pending records whose ids are all unset, starting from a valid
store (pairwise-distinct persisted ids), the run succeeds, the trace of
newly assigned ids is strictly increasing (each newly assigned id is
strictly greater than every previously assigned id), every assigned id
exceeds every initial id, and all ids ever persisted — initial ids plus the
trace — are pairwise distinct.  (With deletions interleaved this fails, see
the counterexample: deleting the record with the maximum id makes the next
commit reassign that id.) -/
theorem commit_ids_distinct_monotone (fs : FileState) (us : List User)
    (pss : List (List User)) (hload : usersLoad fs = .ok us)
    (hdist : (someIds us).Pairwise (· ≠ ·))
    (hfresh : ∀ p ∈ pss, ∀ u ∈ p, u.id = none) :
    ∃ fs' tr,
      runOps fs (pss.map Op.commit) = .ok (fs', tr) ∧
      tr.Pairwise (· < ·) ∧
      (∀ i ∈ someIds us, ∀ j ∈ tr, i < j) ∧
      (someIds us ++ tr).Pairwise (· ≠ ·) := by
  obtain ⟨fs', us', tr, hrun, hload', hsome, hpw, hgt⟩ :=
    runCommits_aux pss fs us hload hfresh
  refine ⟨fs', tr, hrun, hpw, ?_, ?_⟩
  · intro i hi j hj
    exact lt_of_le_of_lt (mem_le_listMaxD hi) (hgt j hj)
  · refine List.pairwise_append.mpr ⟨hdist, hpw.imp (fun h => ne_of_lt h), ?_⟩
    intro i hi j hj
    exact ne_of_lt (lt_of_le_of_lt (mem_le_listMaxD hi) (hgt j hj))

/-- Witness for the amended C1 theorem at a concrete input: two commits of
one fresh record each from the empty store. -/
theorem commit_ids_distinct_monotone_inst :
    ∃ fs' tr,
      runOps (.dictUsers []) ([[mkFresh "A"], [mkFresh "B"]].map Op.commit) =
        .ok (fs', tr) ∧
      tr.Pairwise (· < ·) ∧
      (∀ i ∈ someIds [], ∀ j ∈ tr, i < j) ∧
      (someIds [] ++ tr).Pairwise (· ≠ ·) :=
  commit_ids_distinct_monotone (.dictUsers []) [] [[mkFresh "A"], [mkFresh "B"]]
    rfl (by simp [someIds]) (by decide)

/-- Claim C2 (code bug): `_write_users_file` is a plain truncating
`Path.write_text`, not a write-to-temp-then-replace.  Evaluated at a store
holding one record and a commit of one pending record whose persist step
fails mid-write: the file is left holding a strict prefix of the new JSON
text (undecodable), so the store's readable content afterwards is `[]`,
which differs from its content `[storedU]` before the commit — the claim's
"readable content afterwards equals its content before" fails, while its
"pending list still contains all N records" part does hold (the one pending
record survives, with its id already assigned). -/
theorem persist_midwrite_failure_empties_store :
    usersLoad (.dictUsers [user_to_dict storedU]) = .ok [storedU] ∧
    commitPersistFails (.dictUsers [user_to_dict storedU]) [mkFresh "F"] =
      (.undecodable, [{ mkFresh "F" with id := some 2 }]) ∧
    usersLoad .undecodable = .ok [] ∧
    ([{ mkFresh "F" with id := some 2 }] : List User).length = [mkFresh "F"].length ∧
    ([] : List User) ≠ [storedU] :=
  ⟨rfl, rfl, rfl, rfl, by decide⟩

/-- Claim C3, counterexample: a present, decodable representation whose
record structure is malformed (a `"users"` entry that is an empty dict) does
raise: `_read_users_file` itself returns the raw dict without error, but the
load path used by `query` and `commit` raises `KeyError` in
`_dict_to_user`, so callers do observe an error for this corruption. -/
theorem load_raises_on_malformed_record :
    read_users_file (.dictUsers [rawBlank]) = [rawBlank] ∧
    usersLoad (.dictUsers [rawBlank]) = .error .keyError :=
  ⟨rfl, rfl⟩

/-- Claim C3 as amended: when the durable representation is missing, or is
present but not decodable (OSError / malformed JSON), or is a dict without
a `"users"` key, `load` returns the empty record list and does not raise;
but a decodable representation containing a structurally malformed record
makes the load path raise in the record-conversion step (see the
counterexample). -/
theorem load_missing_or_undecodable_empty :
    usersLoad .missing = .ok [] ∧
    usersLoad .undecodable = .ok [] ∧
    usersLoad .dictOther = .ok [] ∧
    read_users_file .missing = [] ∧
    read_users_file .undecodable = [] :=
  ⟨rfl, rfl, rfl, rfl, rfl⟩

/-- Claim C4, counterexample: a pending record whose id is already set does
not receive `max(existing ids, default 0) + 1`.  Committing the single
record `uPre7` (id 7) to the empty store persists it with id 7, not with
`maxIdOf [] + 1 = 1`. -/
theorem commit_preset_id_not_consecutive :
    commitF (.dictUsers []) [uPre7] = .ok (.dictUsers [user_to_dict uPre7], []) ∧
    (user_to_dict uPre7).id = some 7 ∧
    (user_to_dict uPre7).id ≠ some (maxIdOf ([] : List User) + 1) :=
  ⟨rfl, rfl, by decide⟩

/-- Claim C4 as amended: for every loadable store and non-empty pending
list whose records all have unset ids, commit persists current ++ pending
and the i-th pending record (0-based) receives id
`max(existing ids, default 0) + 1 + i`: ids are assigned consecutively in
insertion order, starting at `max + 1`. -/
theorem commit_fresh_ids_consecutive (fs : FileState) (us p : List User)
    (hload : usersLoad fs = .ok us) (hp : p ≠ [])
    (hfresh : ∀ u ∈ p, u.id = none) :
    commitF fs p =
      .ok (writeUsers (us ++ assignIds (maxIdOf us) 1 p), newIds (maxIdOf us) 1 p) ∧
    ∀ (i : Nat) (u : User), p[i]? = some u →
      (assignIds (maxIdOf us) 1 p)[i]? =
        some { u with id := some (maxIdOf us + 1 + (i : Int)) } := by
  refine ⟨commitF_of_load fs us p hp hload, ?_⟩
  intro i u hi
  have h := assignIds_getElem_of_none (maxIdOf us) p 1 i u hfresh hi
  simpa using h

/-- Witness for the amended C4 theorem at a concrete input: committing two
fresh records to the empty store assigns ids 1 and 2 consecutively. -/
theorem commit_fresh_ids_consecutive_inst :
    commitF (.dictUsers []) [mkFresh "A", mkFresh "B"] =
      .ok (.dictUsers [user_to_dict { mkFresh "A" with id := some 1 },
                       user_to_dict { mkFresh "B" with id := some 2 }], [1, 2]) ∧
    (assignIds (maxIdOf ([] : List User)) 1 [mkFresh "A", mkFresh "B"])[0]? =
      some { mkFresh "A" with id := some 1 } ∧
    (assignIds (maxIdOf ([] : List User)) 1 [mkFresh "A", mkFresh "B"])[1]? =
      some { mkFresh "B" with id := some 2 } := by
  have h := commit_fresh_ids_consecutive (.dictUsers []) [] [mkFresh "A", mkFresh "B"]
    rfl (by simp) (by decide)
  exact ⟨h.1, h.2 0 (mkFresh "A") rfl, h.2 1 (mkFresh "B") rfl⟩

/-- Claim C5, counterexample: `_Session.add` only checks
`isinstance(user, User)`, so a `User` whose id is already set — not a
well-formed *unpersisted* record — is accepted and appended rather than
rejected. -/
theorem add_accepts_preset_id_user :
    session_add [] (.user uPre7) = .ok [uPre7] ∧ uPre7.id = some 7 :=
  ⟨rfl, rfl⟩

/-- Claim C5 as amended: `add` raises `TypeError` for every argument that is
not a `User` instance; every `User` instance — even one whose id is already
set — is accepted and merely appended to the internal pending list.  The
store is not touched: `add` neither reads nor writes the file (it is not
part of `session_add`'s type). -/
theorem add_rejects_only_non_user (pending : List User) :
    session_add pending .notUser = .error .typeError ∧
    ∀ u : User, session_add pending (.user u) = .ok (pending ++ [u]) :=
  ⟨rfl, fun _ => rfl⟩

/-- Claim C6: on a non-empty candidate list, the index selected by `verify`
(`np.argmax` of the scores) is in range, its score is a maximum of all
scores, every strictly earlier candidate has a strictly smaller score
(first occurrence of the maximum wins), and when the threshold is met
`verify` returns `Matched` with exactly the candidate at that index. -/
theorem verify_stable_argmax (sim : EmbVec → EmbVec → ℚ) (q : EmbVec) (t : ℚ)
    (u : User) (us : List User) :
    npArgmax (scoresOf sim q (u :: us)) < (u :: us).length ∧
    (∀ j, j < (u :: us).length →
      (scoresOf sim q (u :: us)).getD j 0 ≤
        (scoresOf sim q (u :: us)).getD (npArgmax (scoresOf sim q (u :: us))) 0) ∧
    (∀ j, j < npArgmax (scoresOf sim q (u :: us)) →
      (scoresOf sim q (u :: us)).getD j 0 <
        (scoresOf sim q (u :: us)).getD (npArgmax (scoresOf sim q (u :: us))) 0) ∧
    (t ≤ (scoresOf sim q (u :: us)).getD (npArgmax (scoresOf sim q (u :: us))) 0 →
      verify sim q (u :: us) t =
        .matched ((u :: us).getD (npArgmax (scoresOf sim q (u :: us))) u)
          ((scoresOf sim q (u :: us)).getD (npArgmax (scoresOf sim q (u :: us))) 0)) := by
  have hs : scoresOf sim q (u :: us) =
      sim q u.embedding :: us.map (fun v => sim q v.embedding) := by
    simp [scoresOf]
  have hlen : (u :: us).length =
      (sim q u.embedding :: us.map (fun v => sim q v.embedding)).length := by
    simp
  refine ⟨?_, ?_, ?_, ?_⟩
  · rw [hs, hlen]
    exact npArgmax_lt_length _ _
  · intro j hj
    rw [hs, getD_npArgmax]
    exact getD_le_max _ _ j (by rw [← hlen]; exact hj)
  · intro j hj
    rw [hs] at hj ⊢
    rw [getD_npArgmax]
    exact getD_lt_max_of_lt_npArgmax _ _ j hj
  · intro hle
    rw [verify_cons, if_pos hle]

/-- Witness for C6 at the spec's example: scores `[0.5, 0.9, 0.9]` select
the second candidate (`uV2`), not the third (`uV3`). -/
theorem verify_stable_argmax_inst :
    npArgmax (scoresOf simEx [] [uV1, uV2, uV3]) = 1 ∧
    verify simEx [] [uV1, uV2, uV3] (mkRat 9 10) = .matched uV2 (mkRat 9 10) ∧
    uV2 ≠ uV3 := by
  have h := verify_stable_argmax simEx [] (mkRat 9 10) uV1 [uV2, uV3]
  exact ⟨by decide, h.2.2.2 (by decide), by decide⟩

/-- Claim C7: on a non-empty candidate list, the score `verify` compares
against the threshold is a maximum of all scores, the boundary is inclusive
— `best >= threshold` yields `Matched` (in particular a score exactly equal
to the threshold), and `best < threshold` yields `NoMatch` reporting that
best score. -/
theorem verify_threshold_inclusive (sim : EmbVec → EmbVec → ℚ) (q : EmbVec)
    (t : ℚ) (u : User) (us : List User) :
    (∀ j, j < (u :: us).length →
      (scoresOf sim q (u :: us)).getD j 0 ≤
        (scoresOf sim q (u :: us)).getD (npArgmax (scoresOf sim q (u :: us))) 0) ∧
    (t ≤ (scoresOf sim q (u :: us)).getD (npArgmax (scoresOf sim q (u :: us))) 0 →
      verify sim q (u :: us) t =
        .matched ((u :: us).getD (npArgmax (scoresOf sim q (u :: us))) u)
          ((scoresOf sim q (u :: us)).getD (npArgmax (scoresOf sim q (u :: us))) 0)) ∧
    ((scoresOf sim q (u :: us)).getD (npArgmax (scoresOf sim q (u :: us))) 0 < t →
      verify sim q (u :: us) t =
        .noMatch ((scoresOf sim q (u :: us)).getD (npArgmax (scoresOf sim q (u :: us))) 0)) := by
  have hs : scoresOf sim q (u :: us) =
      sim q u.embedding :: us.map (fun v => sim q v.embedding) := by
    simp [scoresOf]
  have hlen : (u :: us).length =
      (sim q u.embedding :: us.map (fun v => sim q v.embedding)).length := by
    simp
  refine ⟨?_, ?_, ?_⟩
  · intro j hj
    rw [hs, getD_npArgmax]
    exact getD_le_max _ _ j (by rw [← hlen]; exact hj)
  · intro hle
    rw [verify_cons, if_pos hle]
  · intro hlt
    rw [verify_cons, if_neg (not_le.mpr hlt)]

/-- Witness for C7 at a concrete boundary input: a single candidate whose
score `0.9` is exactly the threshold `0.9` yields `Matched`, not
`NoMatch`. -/
theorem verify_threshold_inclusive_inst :
    verify simEx [] [uV2] (mkRat 9 10) = .matched uV2 (mkRat 9 10) := by
  have h := verify_threshold_inclusive simEx [] (mkRat 9 10) uV2 []
  exact h.2.1 (by decide)

/-- Claim C8: `cos_sim a b` equals `dot(a,b) / (norm(a)*norm(b))` whenever
both norms are nonzero, and equals exactly 0 whenever either norm is zero:
the guard `if denom` sends exactly the zero-denominator case to the `0.0`
branch, so the division-by-zero branch is never taken; the function is
total (never raises). -/
theorem cos_sim_zero_guard (a b : List ℝ) :
    (norm2 a ≠ 0 → norm2 b ≠ 0 →
      cos_sim a b = dotL a b / (norm2 a * norm2 b)) ∧
    (norm2 a = 0 ∨ norm2 b = 0 → cos_sim a b = 0) := by
  constructor
  · intro ha hb
    unfold cos_sim
    rw [if_neg (mul_ne_zero ha hb)]
  · intro h
    unfold cos_sim
    rcases h with h | h
    · rw [h, zero_mul, if_pos rfl]
    · rw [h, mul_zero, if_pos rfl]

/-- Witness for C8 at concrete inputs: similarity of `[1]` with itself is 1
(nonzero-norm branch), and similarity of the zero vector `[0]` with `[1]`
is 0 (zero-norm branch). -/
theorem cos_sim_zero_guard_inst : cos_sim [1] [1] = 1 ∧ cos_sim [0] [1] = 0 := by
  have hn : norm2 [1] = 1 := by
    unfold norm2 sumSq
    simp
  constructor
  · have h := (cos_sim_zero_guard [1] [1]).1 (by rw [hn]; exact one_ne_zero)
      (by rw [hn]; exact one_ne_zero)
    rw [h, hn]
    unfold dotL
    norm_num
  · refine (cos_sim_zero_guard [0] [1]).2 (Or.inl ?_)
    unfold norm2 sumSq
    simp

/-- Claim C9: on an empty candidate list `verify` returns `NoEnrollments`
for every similarity function, query and threshold — the empty check comes
first, so no similarity score is computed (the result does not depend on
`sim` or on the query's contents). -/
theorem verify_empty_no_enrollments (sim : EmbVec → EmbVec → ℚ) (q : EmbVec)
    (t : ℚ) : verify sim q [] t = .noEnrollments :=
  rfl

/-- Claim C10: `commit` assigns a fresh id only to pending records whose id
is `None`: every pending record with a preset id is carried into the
persisted store unchanged (no condition relates its id to the existing
ids, so commit itself does not enforce id uniqueness), and when all
pending records have preset ids the store becomes exactly
current ++ pending with no id assigned. -/
theorem commit_keeps_preset_ids (fs : FileState) (us p : List User)
    (hload : usersLoad fs = .ok us) (hp : p ≠ []) :
    (∀ (i : Nat) (u : User) (k : Int), p[i]? = some u → u.id = some k →
      (assignIds (maxIdOf us) 1 p)[i]? = some u) ∧
    commitF fs p =
      .ok (writeUsers (us ++ assignIds (maxIdOf us) 1 p), newIds (maxIdOf us) 1 p) ∧
    ((∀ u ∈ p, u.id ≠ none) → commitF fs p = .ok (writeUsers (us ++ p), [])) := by
  refine ⟨?_, commitF_of_load fs us p hp hload, ?_⟩
  · intro i u k hi hk
    exact assignIds_getElem_of_some (maxIdOf us) p 1 i u (by simp [hk]) hi
  · intro hsome
    rw [commitF_of_load fs us p hp hload, assignIds_of_some _ _ _ hsome,
      newIds_of_some _ _ _ hsome]

/-- Witness for C10 at a concrete input: committing `dupU1` (preset id 1)
onto a store already holding `storedU` (id 1) persists both records with
the same id 1 — commit does not enforce uniqueness. -/
theorem commit_keeps_preset_ids_inst :
    commitF (.dictUsers [user_to_dict storedU]) [dupU1] =
      .ok (.dictUsers [user_to_dict storedU, user_to_dict dupU1], []) ∧
    storedU.id = some 1 ∧ dupU1.id = some 1 := by
  have h := commit_keeps_preset_ids (.dictUsers [user_to_dict storedU]) [storedU]
    [dupU1] (by rw [show (.dictUsers [user_to_dict storedU] : FileState) =
      writeUsers [storedU] from rfl]; exact usersLoad_writeUsers [storedU])
    (by simp)
  exact ⟨h.2.2 (by decide), rfl, rfl⟩

end VoiceAuth
